import Mathlib

/-!
Shallow embedding of the JUCE ↔ QuickJS bridge
(src/modules/juce_javascript/javascript/juce_Javascript.cpp).

Two views of the engine are modelled, matching how the source uses QuickJS:

* a pure tree view (`EVal`) of engine values, for the stateless conversion
  functions `juceToQuickJs` / `tryQuickJSToJuce` / `quickJSToJuce`;
* a heap view (`Engine`, `JSV`, `HeapCell`) for the handle API (`JSObject`),
  the path cursor (`JSCursor`) and native-object registration, where
  properties are created and mutated.

QuickJS itself is an external collaborator (not part of this repository);
its primitives (JS_IsArray, JS_HasProperty, JS_GetPropertyStr, ...) are
modelled by their documented observable behaviour on the representations
above.  Machine doubles are idealised as rationals: the bridge source only
ever reads numbers through the engine's float64 accessor, and every claim is
settled at inputs where the int64→float64 conversion is exact.
-/

namespace Juce

/-- Association-list lookup by key.  Models name→value lookup in a JS object's
own-property table, in a juce `NamedValueSet`, and in `std::map`. -/
def assocLookup {α : Type} : List (String × α) → String → Option α
  | [], _ => none
  | (m, w) :: rest, n => if m = n then some w else assocLookup rest n

/-- Association-list update: overwrite the value in place if the key is
present, otherwise append at the end.  This is the shared semantics of
`JS_SetPropertyStr` on own properties, `NamedValueSet::set` and
`std::map::operator[]` insertion as the source uses them. -/
def assocSet {α : Type} : List (String × α) → String → α → List (String × α)
  | [], n, v => [(n, v)]
  | (m, w) :: rest, n, v =>
      if m = n then (m, v) :: rest else (m, w) :: assocSet rest n v

/-- Lookup in a `Nat`-keyed association list (`DynamicObjectWrapper*` ↦ host
object inside the live-wrapper registry). -/
def assocLookupN {α : Type} : List (Nat × α) → Nat → Option α
  | [], _ => none
  | (m, w) :: rest, n => if m = n then some w else assocLookupN rest n

/-! ## Host values (`juce::var`) -/

/-- The juce `var` tagged union, restricted to the tags the bridge handles:
void, undefined, bool, int (32-bit), int64, double, string, native function
(opaque, identified by a token), array, and object (a `DynamicObject` whose
`NamedValueSet` is modelled by its ordered name→value list). -/
inductive JVar : Type
  | void : JVar
  | undefined : JVar
  | b (x : Bool) : JVar
  | i32 (n : Int) : JVar
  | i64 (n : Int) : JVar
  | d (q : ℚ) : JVar
  | str (s : String) : JVar
  | fn (id : Nat) : JVar
  | arr (xs : List JVar) : JVar
  | obj (ps : List (String × JVar)) : JVar

/-- Modelled from the spec: `QuickJSContext::objectNameAttribute`, the one
reserved internal property name (used for object-identity bookkeeping) that
`tryQuickJSToJuce` skips while enumerating own properties.  The engine-side
spelling is internal to the QuickJS glue; only its identity matters here. -/
def objectNameAttribute : String := "_objectName"

/-! ## Tree view of engine values and the stateless marshaller -/

/-- A QuickJS engine value as the marshaller observes it: undefined, null,
number (the source only distinguishes numbers through `JS_IsNumber` and reads
them through the float64 accessor `JS_ToFloat64`, so one numeric constructor
suffices; `JS_NewInt32` / `JS_NewInt64` / `JS_NewFloat64` all build it),
bool, string, function (opaque, identified by a token), array, object (own
enumerable string-keyed property table in insertion order, the
own-enumeration success flag consulted by `JS_GetOwnPropertyNames`, and the
prototype), or a pending exception. -/
inductive EVal : Type
  | undefined : EVal
  | null : EVal
  | num (q : ℚ) : EVal
  | bool (x : Bool) : EVal
  | str (s : String) : EVal
  | func (id : Nat) : EVal
  | array (xs : List EVal) : EVal
  | object (enumOk : Bool) (ps : List (String × EVal)) (proto : Option EVal) : EVal
  | exn (msg : String) : EVal

/-- `JS_IsObject` as used on prototypes in the enumeration loop of
`tryQuickJSToJuce` (plain objects; exotic prototypes are not modelled). -/
def isObjectE : EVal → Bool
  | .object _ _ _ => true
  | _ => false

mutual
/-- `ptr[name]` (`JS_GetPropertyStr`): the named property, looked up through
the prototype chain, `undefined` when absent. -/
def getPropD : EVal → String → EVal
  | .object _ ps proto, n => (assocLookup ps n).getD (getPropChain proto n)
  | _, _ => .undefined
def getPropChain : Option EVal → String → EVal
  | some p, n => getPropD p n
  | none, _ => .undefined
end

mutual
/-- The property-name collection loop of `tryQuickJSToJuce`'s object branch:
enumerate own enumerable string keys (skipping `objectNameAttribute`), then
ascend the prototype chain while the prototype is an object; `none` models
the `JS_GetOwnPropertyNames` failure at any level, on which the source
abandons the walk and returns an empty `DynamicObject`. -/
def collectPropNames : EVal → Option (List String)
  | .object enumOk ps proto =>
      if enumOk = false then none
      else collectChain ((ps.map Prod.fst).filter (fun n => n ≠ objectNameAttribute)) proto
  | _ => some []
def collectChain : List String → Option EVal → Option (List String)
  | own, some p =>
      if isObjectE p then (collectPropNames p).map (fun rest => own ++ rest)
      else some own
  | own, none => some own
end

/-- Size bound on association-list lookups; supports the termination argument
of `tryQuickJSToJuce`. -/
def assocLookup_sizeOf_lt : ∀ (l : List (String × EVal)) (n : String) (w : EVal),
    assocLookup l n = some w → sizeOf w < sizeOf l := by
  intro l
  induction l with
  | nil => intro n w h; simp [assocLookup] at h
  | cons p rest ih =>
      intro n w h
      by_cases hm : p.1 = n
      · simp [assocLookup, hm] at h
        subst h
        cases p with
        | mk m v => simp; omega
      · simp [assocLookup, hm] at h
        have := ih n w h
        simp
        omega

/-- Every engine value has positive size; supports the termination argument
of `tryQuickJSToJuce`. -/
def EVal_sizeOf_pos : ∀ v : EVal, 0 < sizeOf v := by
  intro v
  cases v <;> simp_arith

/-- A chain lookup never exceeds the size of the receiver; supports the
termination argument of `tryQuickJSToJuce`. -/
def getPropD_sizeOf_le : ∀ (k : Nat) (v : EVal), sizeOf v ≤ k →
    ∀ n : String, sizeOf (getPropD v n) ≤ sizeOf v := by
  intro k
  induction k with
  | zero =>
      intro v hv n
      have := EVal_sizeOf_pos v
      omega
  | succ k ih =>
      intro v hv n
      cases v with
      | object e ps proto =>
          cases hL : assocLookup ps n with
          | some w =>
              have hlt := assocLookup_sizeOf_lt ps n w hL
              rw [getPropD, hL]
              simp at hv ⊢
              omega
          | none =>
              cases proto with
              | some p =>
                  have hps : sizeOf p ≤ k := by
                    simp at hv
                    omega
                  have hle := ih p hps n
                  rw [getPropD, hL, getPropChain]
                  simp at hv ⊢
                  omega
              | none =>
                  rw [getPropD, hL, getPropChain]
                  simp <;> omega
      | undefined => simp [getPropD]
      | null => simp [getPropD]
      | num q => simp [getPropD] <;> omega
      | bool x => simp [getPropD] <;> omega
      | str s => simp [getPropD] <;> omega
      | func id => simp [getPropD] <;> omega
      | array xs => simp [getPropD] <;> omega
      | exn m => simp [getPropD] <;> omega

/-- A chain lookup on an object value is strictly smaller than the object;
the termination measure of `tryQuickJSToJuce`'s property conversion. -/
def getPropD_sizeOf_lt : ∀ (e : Bool) (ps : List (String × EVal)) (proto : Option EVal)
    (n : String), sizeOf (getPropD (.object e ps proto) n) < sizeOf (EVal.object e ps proto) := by
  intro e ps proto n
  cases hL : assocLookup ps n with
  | some w =>
      have hlt := assocLookup_sizeOf_lt ps n w hL
      rw [getPropD, hL]
      simp
      omega
  | none =>
      cases proto with
      | some p =>
          have hle := getPropD_sizeOf_le (sizeOf p) p (le_refl _) n
          rw [getPropD, hL, getPropChain]
          simp
          omega
      | none =>
          rw [getPropD, hL, getPropChain]
          simp <;> omega

mutual
/-- `juceToQuickJs`: host value → engine value, following the source's branch
order (void → null, undefined, int32 / int64 / double → number, bool, string,
native function → engine callable, array populated index-by-index, object
set name-by-name over its `NamedValueSet`).  The int64→float64 narrowing is
modelled exactly (sound for values representable in float64). -/
def juceToQuickJs : JVar → EVal
  | .void => .null
  | .undefined => .undefined
  | .i32 n => .num (n : ℚ)
  | .i64 n => .num (n : ℚ)
  | .d q => .num q
  | .b x => .bool x
  | .str s => .str s
  | .fn id => .func id
  | .arr xs => .array (juceToQuickJsList xs)
  | .obj ps => .object true (juceToQuickJsProps ps []) none
def juceToQuickJsList : List JVar → List EVal
  | [] => []
  | x :: rest => juceToQuickJs x :: juceToQuickJsList rest
def juceToQuickJsProps : List (String × JVar) → List (String × EVal) → List (String × EVal)
  | [], acc => acc
  | (n, v) :: rest, acc => juceToQuickJsProps rest (assocSet acc n (juceToQuickJs v))
end

mutual
/-- `tryQuickJSToJuce`: engine value → host value, throwing (modelled by
`Except.error`) only via `ptr.throwIfError()` on a pending exception.
Numbers all come back through the float64 accessor as double-tagged host
values; arrays convert element-by-element; functions become host callable
proxies (opaque here); objects convert by the collected name list, each name
read back through `ptr[name]`, accumulated with `NamedValueSet::set`
semantics — and an own-property enumeration failure yields an empty
`DynamicObject`, not an error. -/
def tryQuickJSToJuce : EVal → Except String JVar
  | .undefined => .ok .undefined
  | .null => .ok .void
  | .num q => .ok (.d q)
  | .bool x => .ok (.b x)
  | .str s => .ok (.str s)
  | .array xs =>
      match tryQuickJSToJuceElems xs with
      | .error m => .error m
      | .ok vs => .ok (.arr vs)
  | .func id => .ok (.fn id)
  | .object e ps proto =>
      match collectPropNames (.object e ps proto) with
      | none => .ok (.obj [])
      | some names =>
          match tryQuickJSToJuceProps e ps proto names [] with
          | .error m => .error m
          | .ok props => .ok (.obj props)
  | .exn m => .error m
termination_by v => (sizeOf v, 1, 0)

def tryQuickJSToJuceElems : List EVal → Except String (List JVar)
  | [] => .ok []
  | x :: rest =>
      match tryQuickJSToJuce x with
      | .error m => .error m
      | .ok v =>
          match tryQuickJSToJuceElems rest with
          | .error m => .error m
          | .ok vs => .ok (v :: vs)
termination_by xs => (sizeOf xs, 1, 0)

def tryQuickJSToJuceProps : Bool → List (String × EVal) → Option EVal → List String →
    List (String × JVar) → Except String (List (String × JVar))
  | _, _, _, [], acc => .ok acc
  | e, ps, proto, n :: rest, acc =>
      match tryQuickJSToJuce (getPropD (.object e ps proto) n) with
      | .error m => .error m
      | .ok w => tryQuickJSToJuceProps e ps proto rest (assocSet acc n w)
termination_by e ps proto names acc => (sizeOf (EVal.object e ps proto), 0, names.length)
decreasing_by
· simp_wf
  exact Prod.Lex.left _ _ (by simpa using getPropD_sizeOf_lt e ps proto n)
· simp_wf
  exact Prod.Lex.right _ (Prod.Lex.right _ (by omega))
end

/-- `VarOrError = std::variant<var, String>`. -/
inductive VarOrError : Type
  | val (v : JVar) : VarOrError
  | err (s : String) : VarOrError

/-- `discardError`: the held value, or `var::undefined()` for an error. -/
def discardError : VarOrError → JVar
  | .val v => v
  | .err _ => .undefined

/-- `quickJSToJuce`: run the throwing conversion and catch the engine error
into the `String` alternative — failures become host error strings, never an
escape of the exception. -/
def quickJSToJuce (v : EVal) : VarOrError :=
  match tryQuickJSToJuce v with
  | .ok w => .val w
  | .error m => .err m

/-- The state of the optional `Result*` error out-parameter after a call. -/
inductive RModel : Type
  | ok : RModel
  | fail (msg : String) : RModel
deriving DecidableEq

/-- `JavascriptEngine::Impl::evaluate` from the raw engine result of
`JS_Eval` onward: the error out-parameter is set to `Result::ok()`, the raw
value is converted by `quickJSToJuce`; a held `var` is returned as is, an
error string overwrites the out-parameter with a failure and the call
returns `var::undefined()`. -/
def evaluate (raw : EVal) : JVar × RModel :=
  match quickJSToJuce raw with
  | .val v => (v, .ok)
  | .err e => (.undefined, .fail e)

/-- `JavascriptEngine::Impl::callFunction` from the raw engine result of
`JS_Invoke` onward; the same error policy as `evaluate`. -/
def callFunction (raw : EVal) : JVar × RModel :=
  match quickJSToJuce raw with
  | .val v => (v, .ok)
  | .err e => (.undefined, .fail e)

/-- Distinct keys, as a `NamedValueSet` guarantees for object host values. -/
def nodupKeys : List String → Bool
  | [] => true
  | n :: rest => (!rest.contains n) && nodupKeys rest

mutual
/-- The host values whose tag survives the round trip unchanged: undefined,
null (void), bool, double, string, and arrays / objects of such values whose
objects have distinct keys none equal to the reserved internal name.  int32,
int64 and native functions are excluded (the former two return double-tagged,
the latter as a proxy). -/
def goodVar : JVar → Bool
  | .void => true
  | .undefined => true
  | .b _ => true
  | .i32 _ => false
  | .i64 _ => false
  | .d _ => true
  | .str _ => true
  | .fn _ => false
  | .arr xs => goodVarList xs
  | .obj ps =>
      nodupKeys (ps.map Prod.fst)
        && (ps.map Prod.fst).all (fun n => n ≠ objectNameAttribute)
        && goodVarProps ps
def goodVarList : List JVar → Bool
  | [] => true
  | x :: rest => goodVar x && goodVarList rest
def goodVarProps : List (String × JVar) → Bool
  | [] => true
  | p :: rest => goodVar p.2 && goodVarProps rest
end

mutual
/-- Engine values containing no pending exception anywhere (elements,
property values, prototypes). -/
def exceptionFree : EVal → Bool
  | .exn _ => false
  | .array xs => exceptionFreeList xs
  | .object _ ps proto => exceptionFreeProps ps && exceptionFreeChain proto
  | _ => true
def exceptionFreeList : List EVal → Bool
  | [] => true
  | x :: rest => exceptionFree x && exceptionFreeList rest
def exceptionFreeProps : List (String × EVal) → Bool
  | [] => true
  | p :: rest => exceptionFree p.2 && exceptionFreeProps rest
def exceptionFreeChain : Option EVal → Bool
  | some p => exceptionFree p
  | none => true
end

/-! ## Heap view of the engine (for `JSObject`, `JSCursor`,
`registerNativeObject`) -/

/-- An engine value as seen through a handle: either a primitive, or a
reference into the engine heap (objects, arrays and class objects live in
heap cells). -/
inductive JSV : Type
  | undefined : JSV
  | null : JSV
  | num (q : ℚ) : JSV
  | bool (x : Bool) : JSV
  | str (s : String) : JSV
  | ref (a : Nat) : JSV
deriving DecidableEq

/-- One heap object: whether `JS_IsArray` holds, its elements (for arrays),
its own named properties, and the opaque pointer installed by
`JS_SetOpaque` for objects of the `juce_DynamicObject` class (modelled as the
`DynamicObjectWrapper` token, `none` for plain script objects). -/
structure HeapCell : Type where
  isArr : Bool
  elems : List JSV
  props : List (String × JSV)
  opq : Option Nat
deriving DecidableEq

/-- The engine context state visible to the bridge: the heap, the address of
the global object, the `DynamicObjectWrapper` registry
(`wrapper ↦ wrapped host object`, the host object being identified by a
token), the live-wrapper set (`DynamicObjectWrapper::getDynamicObjects`), and
a fresh-pointer counter for new wrappers. -/
structure Engine : Type where
  heap : List HeapCell
  globalAddr : Nat
  wrappers : List (Nat × Nat)
  liveSet : List Nat
  nextWrapperId : Nat
deriving DecidableEq

/-- The heap cell a reference designates, if the address is live. -/
def cellAt (st : Engine) (a : Nat) : Option HeapCell := st.heap[a]?

/-- A fresh empty engine object (`JS_NewObject`). -/
def emptyObjCell : HeapCell := { isArr := false, elems := [], props := [], opq := none }

/-- Allocate a new heap cell, returning its address (`JS_NewObject` /
`JS_NewObjectClass`). -/
def alloc (st : Engine) (c : HeapCell) : Engine × Nat :=
  ({ st with heap := st.heap ++ [c] }, st.heap.length)

/-- `JS_SetPropertyStr` on the object at address `a`: overwrite-or-append in
its own-property table.  Setting on a dead address is a no-op. -/
def setPropAt (st : Engine) (a : Nat) (n : String) (v : JSV) : Engine :=
  match st.heap[a]? with
  | some c => { st with heap := st.heap.set a { c with props := assocSet c.props n v } }
  | none => st

/-- `hasProperty (ctx, object, name)` (the free helper used by
`JSObject::Impl::hasProperty` and `getOrCreateProperty`): true iff the value
is an object whose own-property table holds `name`. -/
def hasProperty (st : Engine) (h : JSV) (n : String) : Bool :=
  match h with
  | .ref a =>
      match cellAt st a with
      | some c => (assocLookup c.props n).isSome
      | none => false
  | _ => false

/-- `JS_GetPropertyStr`: the value of own property `n`, `undefined` when
absent or when the receiver is not a live object. -/
def getProp (st : Engine) (h : JSV) (n : String) : JSV :=
  match h with
  | .ref a =>
      match cellAt st a with
      | some c => (assocLookup c.props n).getD .undefined
      | none => .undefined
  | _ => .undefined

/-- `JSObject::Impl::isArray`, i.e. `JS_IsArray` on the handle's value. -/
def isArray (st : Engine) (h : JSV) : Bool :=
  match h with
  | .ref a => ((cellAt st a).map HeapCell.isArr).getD false
  | _ => false

/-- `JSObject::Impl::getSize`: non-arrays are rejected (debug assertion) and
produce `0`; arrays report their `length` property. -/
def getSize (st : Engine) (h : JSV) : Int :=
  if isArray st h = false then 0
  else
    match h with
    | .ref a =>
        match cellAt st a with
        | some c => (c.elems.length : Int)
        | none => 0
    | _ => 0

/-- `toUint32`: the (debug-asserted) narrowing of a juce `int64` index to
`uint32_t`, with C cast semantics. -/
def toUint32 (i : Int) : Nat := (i % (2 ^ 32 : Int)).toNat

/-- `ValuePtr::operator[](uint32)` (`JS_GetPropertyUint32`) as used by
`JSObject::Impl::getChild (int64)`: the array element at the narrowed index,
`undefined` out of bounds. -/
def elemAt (st : Engine) (h : JSV) (i : Int) : JSV :=
  match h with
  | .ref a =>
      match cellAt st a with
      | some c => c.elems.getD (toUint32 i) .undefined
      | none => .undefined
  | _ => .undefined

/-- `getOrCreateProperty (ctx, object, name)`: if the object does not already
have the property, store a fresh empty object under that name first; then
return the property's value.  On a non-reference receiver the store is an
engine-level failure and the read yields `undefined`. -/
def getOrCreateProperty (st : Engine) (h : JSV) (n : String) : Engine × JSV :=
  if hasProperty st h n then (st, getProp st h n)
  else
    match h with
    | .ref a =>
        let stAlloc := alloc st emptyObjCell
        let stSet := setPropAt stAlloc.1 a n (.ref stAlloc.2)
        (stSet, getProp stSet h n)
    | _ => (st, .undefined)

/-- `JSObject::getChild (int64)`: a pure element read (the array-typed
requirement is a debug assertion, recorded by `getChildIndexAssertOk`); the
engine state is returned unchanged — the overload never grows anything. -/
def getChildIndex (st : Engine) (h : JSV) (i : Int) : Engine × JSV :=
  (st, elemAt st h i)

/-- The `jassert (isArray())` guarding `JSObject::getChild (int64)`: the
assertion holds exactly when the handle's value is array-typed. -/
def getChildIndexAssertOk (st : Engine) (h : JSV) : Bool := isArray st h

/-- Structural conversion of a heap value to a host value, with fuel
(the C++ recursion is unbounded; `st.heap.length + 1` fuel is enough for any
acyclic heap).  Models `discardError (quickJSToJuce ...)` on the heap view:
numbers through the float64 accessor, arrays element-by-element, objects by
their own enumerable names (skipping `objectNameAttribute`). -/
def heapToVar : Nat → Engine → JSV → JVar
  | 0, _, _ => .undefined
  | _ + 1, _, .undefined => .undefined
  | _ + 1, _, .null => .void
  | _ + 1, _, .num q => .d q
  | _ + 1, _, .bool x => .b x
  | _ + 1, _, .str s => .str s
  | f + 1, st, .ref a =>
      match cellAt st a with
      | none => .undefined
      | some c =>
          if c.isArr then .arr (c.elems.map (heapToVar f st))
          else .obj (((c.props.filter (fun p => p.1 ≠ objectNameAttribute)).map
                        (fun p => (p.1, heapToVar f st p.2))))

/-- The result of `JSObject::get()`: either the identity of a live registered
host object (`wrapper->object`), or a structurally converted host value.  The
two constructors keep host-originated identity distinct from a structural
copy. -/
inductive HVal : Type
  | ident (hostId : Nat) : HVal
  | conv (v : JVar) : HVal

/-- `JSObject::Impl::get`: first the identity check — if the value carries an
opaque pointer of the `juce_DynamicObject` class that is present in the live
set, return the wrapper's original host object; otherwise convert
structurally via the marshaller. -/
def jsObjectGet (st : Engine) (h : JSV) : HVal :=
  match h with
  | .ref a =>
      match (cellAt st a).bind HeapCell.opq with
      | some w =>
          if st.liveSet.contains w then .ident ((assocLookupN st.wrappers w).getD 0)
          else .conv (heapToVar (st.heap.length + 1) st h)
      | none => .conv (heapToVar (st.heap.length + 1) st h)
  | _ => .conv (heapToVar (st.heap.length + 1) st h)

/-- `JavascriptEngine::Impl::registerNativeObject`: construct a
`DynamicObjectWrapper` (whose constructor inserts it into the live set and
which holds the host object), create the class object, attach the wrapper as
its opaque pointer, and store it under `name` on the parent (the global
object when no parent is given).  The per-property accessor/method
installation dispatches back through the wrapper and has no further
observable effect on this model's state. -/
def registerNativeObject (st : Engine) (name : String) (hostId : Nat)
    (parent : Option JSV) : Engine :=
  let wid := st.nextWrapperId
  let st1 : Engine :=
    { st with liveSet := wid :: st.liveSet
              wrappers := (wid, hostId) :: st.wrappers
              nextWrapperId := wid + 1 }
  let stAlloc := alloc st1 { isArr := false, elems := [], props := [], opq := some wid }
  match parent with
  | some (.ref p) => setPropAt stAlloc.1 p name (.ref stAlloc.2)
  | some _ => stAlloc.1
  | none => setPropAt stAlloc.1 stAlloc.1.globalAddr name (.ref stAlloc.2)

/-! ## Path cursor (`JSCursor`) -/

/-- One path step: `JSCursor::Property = std::variant<Identifier, int64>`. -/
inductive Step : Type
  | name (n : String) : Step
  | idx (i : Int) : Step
deriving DecidableEq

/-- `JSCursor::resolve (object, property)`, with the engine threaded through
because a name step reads the child through `getOrCreateProperty`: an index
step requires `isArray()` and `index < getSize()`; a name step requires
`hasProperty (key)`; anything else is unresolved. -/
def resolve (st : Engine) (h : JSV) (p : Step) : Engine × Option JSV :=
  match p with
  | .idx i =>
      if isArray st h = false then (st, none)
      else if ¬ (i < getSize st h) then (st, none)
      else (st, some (elemAt st h i))
  | .name n =>
      if hasProperty st h n = false then (st, none)
      else
        let r := getOrCreateProperty st h n
        (r.1, some r.2)

/-- The resolution loop inside `JSCursor::getPartialResolution`, walking the
given steps in order and stopping at the first failure. -/
def walk : Engine → JSV → List Step → Engine × Option JSV
  | st, h, [] => (st, some h)
  | st, h, p :: rest =>
      match resolve st h p with
      | (st', none) => (st', none)
      | (st', some h') => walk st' h' rest

/-- `JSCursor::getPartialResolution`: walk every step except the last; on
success return the parent handle together with the optional last step. -/
def getPartialResolution (st : Engine) (root : JSV) (path : List Step) :
    Engine × Option (JSV × Option Step) :=
  match walk st root path.dropLast with
  | (st', none) => (st', none)
  | (st', some h) => (st', some (h, path.getLast?))

/-- `JSCursor::getFullResolution`: partial resolution, then resolve the final
step too (when there is one). -/
def getFullResolution (st : Engine) (root : JSV) (path : List Step) :
    Engine × Option JSV :=
  match getPartialResolution st root path with
  | (st', none) => (st', none)
  | (st', some (h, none)) => (st', some h)
  | (st', some (h, some p)) => resolve st' h p

/-- `JSCursor::get`: the resolved handle's value, or `var::undefined()` when
any step is unresolved. -/
def cursorGet (st : Engine) (root : JSV) (path : List Step) : HVal :=
  match getFullResolution st root path with
  | (st', some h) => jsObjectGet st' h
  | (_, none) => .conv .undefined

/-- The spec-side step rule of `getPartialResolution()` (stated in §4.5 of
the specification): a name step resolves iff `hasProperty`, an index step iff
`isArray() && index < getSize()`; pure because a guarded name read leaves the
engine untouched. -/
def resolveSpec (st : Engine) (h : JSV) : Step → Option JSV
  | .idx i =>
      if isArray st h = true ∧ i < getSize st h then some (elemAt st h i) else none
  | .name n =>
      if hasProperty st h n = true then some (getProp st h n) else none

/-- The spec-side uniform re-walk: fold the step rule over the whole path
from the root, failing at the first unresolved step. -/
def walkSpec (st : Engine) (root : JSV) (path : List Step) : Option JSV :=
  path.foldl (fun acc p => acc.bind (fun h => resolveSpec st h p)) (some root)

/-- The outcome of `JSCursor::invoke`: the two explicit `jassertfalse` exits,
the dispatch to `invokeMethod` for a name-final path — or the undefined
behaviour of dereferencing the null pointer `std::get_if<Identifier>` returns
when the final step is an integer index. -/
inductive CursorInvokeOut : Type
  | assertUnresolved : CursorInvokeOut
  | assertNoFinalStep : CursorInvokeOut
  | derefNull : CursorInvokeOut
  | invokes (parent : JSV) (method : String) : CursorInvokeOut
deriving DecidableEq

/-- `JSCursor::invoke (args, result)` up to the method dispatch: partial
resolution (assert on failure), assert when the path is empty, then invoke
`*std::get_if<Identifier> (&(*property))` on the parent — which dereferences
a null pointer when the final step is an index, with no assertion before. -/
def cursorInvoke (st : Engine) (root : JSV) (path : List Step) : CursorInvokeOut :=
  match getPartialResolution st root path with
  | (_, none) => .assertUnresolved
  | (_, some (_, none)) => .assertNoFinalStep
  | (_, some (_, some (.idx _))) => .derefNull
  | (_, some (h, some (.name n))) => .invokes h n

/-! ## `DynamicObjectWrapper` ordinal table -/

/-- The per-binding ordinal state of `DynamicObjectWrapper`: the
`std::map<Identifier, int16_t> ordinals` and the
`std::vector<Identifier> identifiers`. -/
structure OrdTable : Type where
  ordinals : List (String × Nat)
  identifiers : List String
deriving DecidableEq

/-- `DynamicObjectWrapper::getOrdinal`: return the existing ordinal when the
identifier is known; otherwise push the identifier, assign the next dense
ordinal (`identifiers.size() - 1` after the push) and record it. -/
def getOrdinal (t : OrdTable) (id : String) : OrdTable × Nat :=
  match assocLookup t.ordinals id with
  | some o => (t, o)
  | none =>
      let identifiers' := t.identifiers ++ [id]
      let newOrdinal := identifiers'.length - 1
      ({ ordinals := assocSet t.ordinals id newOrdinal, identifiers := identifiers' },
       newOrdinal)

/-- `DynamicObjectWrapper::getIdentifier`: index the identifier vector (the
bound is a debug assertion; out of range reads the default). -/
def getIdentifier (t : OrdTable) (o : Nat) : String := t.identifiers.getD o ""

/-- The table invariant maintained by `getOrdinal`: every recorded ordinal
indexes its own identifier in the vector. -/
def ordTableWF (t : OrdTable) : Bool :=
  t.ordinals.all (fun p => t.identifiers[p.2]? = some p.1)

/-! ## Engine host timeout (`JavascriptEngine::Impl`) -/

/-- The single piece of interruption state: the absolute deadline held in the
`std::atomic<int64> timeout` member, in the engine host's millisecond clock. -/
structure EngineHost : Type where
  timeout : Int
deriving DecidableEq

/-- The interrupt handler installed in `Impl::Impl`: report interrupt exactly
when the current time has reached the deadline
(`Time::getMillisecondCounterHiRes() >= timeout`; a positive return
interrupts the engine). -/
def interruptHandler (now : Int) (s : EngineHost) : Bool := s.timeout ≤ now

/-- `Impl::stop`: set the deadline to the current time. -/
def stop (now : Int) (s : EngineHost) : EngineHost := { s with timeout := now }

/-- `Impl::resetTimeout`: deadline = now + budget, as done on entry to
`evaluate` and `callFunction`. -/
def resetTimeout (now maxExecTime : Int) (s : EngineHost) : EngineHost :=
  { s with timeout := now + maxExecTime }

end Juce

namespace Juce

/-! # Theorems -/

/-! ## C8: stop() forces the deadline into the past -/

/-- C8: after `stop()` is called at time `tStop`, the deadline equals `tStop`
(so it is at or before the current time), the installed interrupt handler
reports interrupt exactly when the current time has reached the deadline, and
therefore every poll at any time `tPoll ≥ tStop` — including one already
pending when `stop()` ran — observes the expired deadline and returns the
interrupt signal. -/
theorem c8_stop_interrupts (s : EngineHost) (tStop tPoll : Int)
    (hmono : tStop ≤ tPoll) :
    (stop tStop s).timeout ≤ tStop
      ∧ (∀ (s' : EngineHost) (t : Int), interruptHandler t s' = true ↔ s'.timeout ≤ t)
      ∧ interruptHandler tPoll (stop tStop s) = true := by
  refine ⟨le_refl _, fun s' t => by simp [interruptHandler], ?_⟩
  simpa [interruptHandler, stop] using hmono

/-- Witness for C8 at a concrete stop time 5 and poll time 7. -/
theorem c8_witness :
    interruptHandler 7 (stop 5 { timeout := 100 }) = true :=
  (c8_stop_interrupts { timeout := 100 } 5 7 (by norm_num)).2.2

/-! ## C9: getSize is total and returns 0 on non-arrays -/

/-- C9: for every handle whose underlying engine value is not array-typed,
`JSObject::getSize()` (a total function) returns `0` after the debug
assertion, and `isArray()` returns `false` for it by definition of
array-typedness. -/
theorem c9_getSize_non_array (st : Engine) (h : JSV)
    (hna : isArray st h = false) :
    getSize st h = 0 ∧ isArray st h = false := by
  refine ⟨?_, hna⟩
  simp [getSize, hna]

/-- Witness for C9: a number-valued handle in a one-cell engine. -/
theorem c9_witness :
    getSize { heap := [{ isArr := false, elems := [], props := [], opq := none }],
              globalAddr := 0, wrappers := [], liveSet := [], nextWrapperId := 0 }
      (JSV.num 3) = 0 :=
  (c9_getSize_non_array _ _ (by rfl)).1

/-! ## Association-list facts shared by the handle and ordinal proofs -/

theorem assocLookup_assocSet_self {α : Type} (l : List (String × α)) (n : String) (v : α) :
    assocLookup (assocSet l n v) n = some v := by
  induction l with
  | nil => simp [assocSet, assocLookup]
  | cons p rest ih =>
      by_cases hm : p.1 = n
      · simp [assocSet, assocLookup, hm]
      · simp [assocSet, assocLookup, hm, ih]

theorem assocSet_of_lookup_none {α : Type} {l : List (String × α)} {n : String} (v : α)
    (h : assocLookup l n = none) : assocSet l n v = l ++ [(n, v)] := by
  induction l with
  | nil => simp [assocSet]
  | cons p rest ih =>
      by_cases hm : p.1 = n
      · simp [assocLookup, hm] at h
      · simp [assocLookup, hm] at h
        simp [assocSet, hm, ih h]

theorem assocLookup_mem {α : Type} {l : List (String × α)} {n : String} {w : α}
    (h : assocLookup l n = some w) : (n, w) ∈ l := by
  induction l with
  | nil => simp [assocLookup] at h
  | cons p rest ih =>
      obtain ⟨m, v⟩ := p
      by_cases hm : m = n
      · subst hm
        simp [assocLookup] at h
        subst h
        exact List.mem_cons_self _ _
      · simp [assocLookup, hm] at h
        exact List.mem_cons_of_mem _ (ih h)

/-! ## C10: ordinal table -/

/-- C10: under the table invariant, `getOrdinal` is idempotent (a second call
with the same identifier returns the same ordinal and leaves the table
unchanged), `getIdentifier` is its left inverse, a cache hit never grows the
table, a fresh identifier receives the next dense ordinal (the current size
of the identifier vector, hence 0, 1, 2, … in first-request order from an
empty table), and the invariant is preserved. -/
theorem c10_getOrdinal_table (t : OrdTable) (id : String) (hwf : ordTableWF t = true) :
    getOrdinal (getOrdinal t id).1 id = getOrdinal t id
    ∧ getIdentifier (getOrdinal t id).1 (getOrdinal t id).2 = id
    ∧ (assocLookup t.ordinals id = none → (getOrdinal t id).2 = t.identifiers.length)
    ∧ (∀ o : Nat, assocLookup t.ordinals id = some o → getOrdinal t id = (t, o))
    ∧ ordTableWF (getOrdinal t id).1 = true := by
  cases hL : assocLookup t.ordinals id with
  | some o =>
      have hmem : (id, o) ∈ t.ordinals := assocLookup_mem hL
      have hidx : t.identifiers[o]? = some id := by
        simpa using List.all_eq_true.mp hwf _ hmem
      refine ⟨?_, ?_, ?_, ?_, ?_⟩
      · simp [getOrdinal, hL]
      · simp [getOrdinal, hL, getIdentifier, List.getD_eq_getElem?_getD, hidx]
      · simp [hL]
      · intro o' ho'
        have ho : o = o' := Option.some.inj ho'
        subst ho
        simp [getOrdinal, hL]
      · simp [getOrdinal, hL, hwf]
  | none =>
      have hset : assocSet t.ordinals id t.identifiers.length
          = t.ordinals ++ [(id, t.identifiers.length)] := assocSet_of_lookup_none _ hL
      refine ⟨?_, ?_, ?_, ?_, ?_⟩
      · simp only [getOrdinal, hL]
        simp [assocLookup_assocSet_self]
      · simp only [getOrdinal, hL]
        simp [getIdentifier, List.getD_eq_getElem?_getD, List.getElem?_concat_length]
      · intro _
        simp [getOrdinal, hL]
      · intro o' ho'
        exact Option.noConfusion ho'
      · simp only [getOrdinal, hL]
        simp only [ordTableWF, List.length_append, List.length_cons, List.length_nil,
          Nat.add_sub_cancel, hset, List.all_append, Bool.and_eq_true]
        constructor
        · rw [List.all_eq_true]
          intro p hp
          have hold : t.identifiers[p.2]? = some p.1 := by
            simpa using List.all_eq_true.mp hwf _ hp
          have hlt : p.2 < t.identifiers.length := by
            by_contra hge
            rw [List.getElem?_eq_none (Nat.le_of_not_lt hge)] at hold
            cases hold
          simp [List.getElem?_append_left hlt, hold]
        · simp [List.length_append, List.getElem?_concat_length]

/-- Witness for C10 on the empty table and identifier "x". -/
theorem c10_witness :
    getIdentifier (getOrdinal { ordinals := [], identifiers := [] } "x").1
        (getOrdinal { ordinals := [], identifiers := [] } "x").2 = "x" :=
  (c10_getOrdinal_table { ordinals := [], identifiers := [] } "x" (by rfl)).2.1

/-! ## C2: cursor resolution -/

theorem resolve_eq_spec (st : Engine) (h : JSV) (p : Step) :
    resolve st h p = (st, resolveSpec st h p) := by
  cases p with
  | idx i =>
      cases hA : isArray st h with
      | false => simp [resolve, resolveSpec, hA]
      | true =>
          by_cases hI : i < getSize st h
          · simp [resolve, resolveSpec, hA, hI]
          · simp [resolve, resolveSpec, hA, hI]
  | name n =>
      cases hH : hasProperty st h n with
      | false => simp [resolve, resolveSpec, hH]
      | true => simp [resolve, resolveSpec, getOrCreateProperty, hH]

theorem foldl_resolveSpec_none (st : Engine) (l : List Step) :
    l.foldl (fun acc p => acc.bind (fun h => resolveSpec st h p)) none = none := by
  induction l with
  | nil => rfl
  | cons p rest ih => simpa [List.foldl] using ih

theorem walk_eq_spec (st : Engine) (l : List Step) : ∀ root : JSV,
    walk st root l
      = (st, l.foldl (fun acc p => acc.bind (fun h => resolveSpec st h p)) (some root)) := by
  induction l with
  | nil => intro root; simp [walk]
  | cons p rest ih =>
      intro root
      cases hR : resolveSpec st root p with
      | none => simp [walk, resolve_eq_spec, hR, foldl_resolveSpec_none]
      | some h' => simp [walk, resolve_eq_spec, hR, ih h']

theorem getFullResolution_eq_walkSpec (st : Engine) (root : JSV) (path : List Step) :
    getFullResolution st root path = (st, walkSpec st root path) := by
  rcases path.eq_nil_or_concat with hnil | ⟨pre, last, hcat⟩
  · subst hnil
    simp [getFullResolution, getPartialResolution, walk, walkSpec]
  · subst hcat
    have hpre := walk_eq_spec st pre root
    cases hW : pre.foldl (fun acc p => acc.bind (fun h => resolveSpec st h p)) (some root) with
    | none =>
        simp [getFullResolution, getPartialResolution, walkSpec, List.concat_eq_append,
              List.dropLast_concat, hpre, hW, List.foldl_append, foldl_resolveSpec_none]
    | some h =>
        simp [getFullResolution, getPartialResolution, walkSpec, List.concat_eq_append,
              List.dropLast_concat, List.getLast?_concat, hpre, hW, List.foldl_append,
              resolve_eq_spec]

/-- C2: every cursor access re-walks the path from the root one step at a
time: the source's `resolve` coincides with the spec rule `resolveSpec`
(a name step resolves iff the object `hasProperty (name)`; an index step
resolves iff `isArray()` and `index < getSize()`), the split walk
(`getPartialResolution` over all but the last step, then the final step)
equals the uniform left-to-right fold that stops at the first failing step,
and `JSCursor::get()` returns the undefined value whenever any step
(including the last) is unresolved. -/
theorem c2_cursor_resolution (st : Engine) (root : JSV) (path : List Step) :
    (∀ (h : JSV) (p : Step), resolve st h p = (st, resolveSpec st h p))
    ∧ (∀ (h : JSV) (n : String),
         resolveSpec st h (.name n) = none ↔ hasProperty st h n = false)
    ∧ (∀ (h : JSV) (i : Int),
         resolveSpec st h (.idx i) = none ↔ ¬ (isArray st h = true ∧ i < getSize st h))
    ∧ getFullResolution st root path = (st, walkSpec st root path)
    ∧ cursorGet st root path
        = (match walkSpec st root path with
           | some h => jsObjectGet st h
           | none => .conv .undefined) := by
  refine ⟨resolve_eq_spec st, ?_, ?_, getFullResolution_eq_walkSpec st root path, ?_⟩
  · intro h n
    cases hH : hasProperty st h n with
    | false => simp [resolveSpec, hH]
    | true => simp [resolveSpec, hH]
  · intro h i
    by_cases hc : isArray st h = true ∧ i < getSize st h
    · simp [resolveSpec, hc]
    · simp [resolveSpec, hc]
  · rw [cursorGet, getFullResolution_eq_walkSpec]
    cases walkSpec st root path <;> rfl

/-! ## C6: JSCursor::invoke on an index-final path -/

/-- C6 (code evaluated at the failing input): a cursor whose partial
resolution succeeds (root object with array property "a") and whose final
step is the integer index 0 drives `JSCursor::invoke` into dereferencing the
null pointer returned by `std::get_if<Identifier>` — not into an assertion
rejecting the call. -/
theorem c6_invoke_index_null_deref :
    cursorInvoke
      { heap := [{ isArr := false, elems := [], props := [("a", JSV.ref 1)], opq := none },
                 { isArr := true, elems := [JSV.num 1], props := [], opq := none }],
        globalAddr := 0, wrappers := [], liveSet := [], nextWrapperId := 0 }
      (JSV.ref 0) [Step.name "a", Step.idx 0] = CursorInvokeOut.derefNull := by
  rfl

/-! ## C7: getChild semantics -/

/-- C7: for a live object handle, `getChild (name)` has get-or-create
semantics — afterwards the object `hasProperty (name)` and the returned
handle wraps the value of that property; when the property was already
present the engine is untouched, and when it was absent exactly one fresh
empty engine object has been allocated and stored under the name.  The index
overload asserts that the handle is array-typed and reads the element
without changing the engine — it never grows the array. -/
theorem c7_getChild_semantics (st : Engine) (a : Nat) (n : String)
    (ha : a < st.heap.length) :
    (hasProperty (getOrCreateProperty st (.ref a) n).1 (.ref a) n = true
     ∧ (getOrCreateProperty st (.ref a) n).2
         = getProp (getOrCreateProperty st (.ref a) n).1 (.ref a) n
     ∧ (hasProperty st (.ref a) n = true → (getOrCreateProperty st (.ref a) n).1 = st)
     ∧ (hasProperty st (.ref a) n = false →
          (getOrCreateProperty st (.ref a) n).1.heap.length = st.heap.length + 1
          ∧ cellAt (getOrCreateProperty st (.ref a) n).1 st.heap.length = some emptyObjCell
          ∧ (getOrCreateProperty st (.ref a) n).2 = .ref st.heap.length))
    ∧ (∀ (h : JSV) (i : Int),
         getChildIndex st h i = (st, elemAt st h i)
         ∧ getChildIndexAssertOk st h = isArray st h) := by
  refine ⟨?_, fun h i => ⟨rfl, rfl⟩⟩
  cases hH : hasProperty st (.ref a) n with
  | true =>
      refine ⟨?_, ?_, fun _ => ?_, fun hc => ?_⟩
      · simp [getOrCreateProperty, hH]
      · simp [getOrCreateProperty, hH]
      · simp [getOrCreateProperty, hH]
      · simp [hH] at hc
  | false =>
      have hcell : st.heap[a]? = some st.heap[a] := List.getElem?_eq_getElem ha
      have ha' : a < (st.heap ++ [emptyObjCell]).length := by
        simp only [List.length_append, List.length_cons, List.length_nil]
        omega
      have happ : (st.heap ++ [emptyObjCell])[a]? = some st.heap[a] := by
        rw [List.getElem?_append_left ha, hcell]
      have hne : a ≠ st.heap.length := Nat.ne_of_lt ha
      have hHu : (assocLookup st.heap[a].props n).isSome = false := by
        simpa [hasProperty, cellAt, hcell] using hH
      refine ⟨?_, ?_, fun hc => ?_, fun _ => ⟨?_, ?_, ?_⟩⟩
      · simp [getOrCreateProperty, hasProperty, cellAt, hcell, hHu, alloc, setPropAt, happ,
              List.getElem?_set_eq_of_lt _ ha', assocLookup_assocSet_self]
      · simp [getOrCreateProperty, hH]
      · simp [hH] at hc
      · simp [getOrCreateProperty, hH, alloc, setPropAt, happ, List.length_set,
              List.length_append]
      · simp [getOrCreateProperty, hH, alloc, setPropAt, happ, cellAt,
              List.getElem?_set_ne hne, List.getElem?_concat_length]
      · simp [getOrCreateProperty, hH, alloc, setPropAt, happ, getProp, cellAt, hcell,
              List.getElem?_set_eq_of_lt _ ha', assocLookup_assocSet_self]

/-- Witness for C7: creating "x" on the sole (property-less) object of a
one-cell engine makes `hasProperty "x"` hold. -/
theorem c7_witness :
    hasProperty (getOrCreateProperty
        { heap := [{ isArr := false, elems := [], props := [], opq := none }],
          globalAddr := 0, wrappers := [], liveSet := [], nextWrapperId := 0 }
        (.ref 0) "x").1 (.ref 0) "x" = true :=
  ((c7_getChild_semantics _ 0 "x" (by decide)).1).1

/-! ## C4: object identity through JSObject::get -/

/-- C4: registering a host object installs a live wrapper binding carrying
the host object, attaches it as the opaque pointer of a fresh class object
stored under `name` on the global object; reading the handle back through
`getRootObject()[name]` and `get()` then hits the identity check first and
returns the original registered host object itself (`HVal.ident`), not a
structural copy (`HVal.conv`). -/
theorem c4_get_identity (st : Engine) (name : String) (hostId : Nat)
    (hg : st.globalAddr < st.heap.length) :
    (getOrCreateProperty (registerNativeObject st name hostId none)
        (.ref (registerNativeObject st name hostId none).globalAddr) name).2
      = .ref st.heap.length
    ∧ jsObjectGet (registerNativeObject st name hostId none) (.ref st.heap.length)
      = .ident hostId := by
  have hcell : st.heap[st.globalAddr]? = some st.heap[st.globalAddr] :=
    List.getElem?_eq_getElem hg
  have hg' : st.globalAddr <
      (st.heap ++ [({ isArr := false, elems := [], props := [],
                      opq := some st.nextWrapperId } : HeapCell)]).length := by
    simp only [List.length_append, List.length_cons, List.length_nil]
    omega
  have happ : (st.heap ++ [({ isArr := false, elems := [], props := [],
                              opq := some st.nextWrapperId } : HeapCell)])[st.globalAddr]?
      = some st.heap[st.globalAddr] := by
    rw [List.getElem?_append_left hg, hcell]
  have hne : st.globalAddr ≠ st.heap.length := Nat.ne_of_lt hg
  constructor
  · simp [registerNativeObject, alloc, setPropAt, happ, getOrCreateProperty, hasProperty,
          getProp, cellAt, hcell, List.getElem?_set_eq_of_lt _ hg',
          assocLookup_assocSet_self]
  · simp [registerNativeObject, alloc, setPropAt, happ, jsObjectGet, cellAt,
          List.getElem?_set_ne hne, List.getElem?_concat_length, assocLookupN]

/-- Witness for C4: registering host object 7 as "O" in a one-cell engine and
reading it back yields the identity result. -/
theorem c4_witness :
    jsObjectGet (registerNativeObject
        { heap := [{ isArr := false, elems := [], props := [], opq := none }],
          globalAddr := 0, wrappers := [], liveSet := [], nextWrapperId := 0 }
        "O" 7 none) (.ref 1) = .ident 7 :=
  (c4_get_identity _ "O" 7 (by decide)).2

/-! ## Marshaller lemmas (shared by C1, C3, C5) -/

theorem assocLookup_append {α : Type} (l1 l2 : List (String × α)) (n : String) :
    assocLookup (l1 ++ l2) n
      = match assocLookup l1 n with
        | some w => some w
        | none => assocLookup l2 n := by
  induction l1 with
  | nil => simp [assocLookup]
  | cons p rest ih =>
      by_cases hm : p.1 = n
      · simp [assocLookup, hm]
      · simp [assocLookup, hm, ih]

theorem assocLookup_map_toQ (ps : List (String × JVar)) (n : String) :
    assocLookup (ps.map (fun p => (p.1, juceToQuickJs p.2))) n
      = (assocLookup ps n).map juceToQuickJs := by
  induction ps with
  | nil => simp [assocLookup]
  | cons p rest ih =>
      by_cases hm : p.1 = n
      · simp [assocLookup, hm]
      · simp [assocLookup, hm, ih]

theorem nodupKeys_lookup (ps : List (String × JVar)) (n : String) (v : JVar)
    (hnd : nodupKeys (ps.map Prod.fst) = true) (hmem : (n, v) ∈ ps) :
    assocLookup ps n = some v := by
  induction ps with
  | nil => simp at hmem
  | cons p rest ih =>
      simp only [List.map_cons, nodupKeys, Bool.and_eq_true, Bool.not_eq_true'] at hnd
      rcases List.mem_cons.mp hmem with hh | ht
      · subst hh
        simp [assocLookup]
      · have hne : p.1 ≠ n := by
          intro he
          have : n ∈ rest.map Prod.fst := List.mem_map.mpr ⟨(n, v), ht, rfl⟩
          rw [he] at hnd
          have := hnd.1
          simp [List.contains_eq_any_beq] at this
          exact absurd (by simpa using ‹n ∈ rest.map Prod.fst›) (by simpa using this)
        simp [assocLookup, hne, ih hnd.2 ht]

theorem goodVarList_mem {xs : List JVar} (h : goodVarList xs = true) {x : JVar}
    (hx : x ∈ xs) : goodVar x = true := by
  induction xs with
  | nil => simp at hx
  | cons y rest ih =>
      rw [goodVarList] at h
      rcases List.mem_cons.mp hx with hh | ht
      · subst hh; exact (Bool.and_eq_true ..|>.mp h).1
      · exact ih (Bool.and_eq_true ..|>.mp h).2 ht

theorem goodVarProps_mem {ps : List (String × JVar)} (h : goodVarProps ps = true)
    {p : String × JVar} (hp : p ∈ ps) : goodVar p.2 = true := by
  induction ps with
  | nil => simp at hp
  | cons q rest ih =>
      rw [goodVarProps] at h
      rcases List.mem_cons.mp hp with hh | ht
      · subst hh; exact (Bool.and_eq_true ..|>.mp h).1
      · exact ih (Bool.and_eq_true ..|>.mp h).2 ht

theorem juceToQuickJsProps_eq (ps : List (String × JVar)) : ∀ acc : List (String × EVal),
    (∀ n ∈ ps.map Prod.fst, assocLookup acc n = none) →
    nodupKeys (ps.map Prod.fst) = true →
    juceToQuickJsProps ps acc = acc ++ ps.map (fun p => (p.1, juceToQuickJs p.2)) := by
  induction ps with
  | nil => intro acc _ _; simp [juceToQuickJsProps]
  | cons p rest ih =>
      intro acc hfresh hnd
      obtain ⟨n, v⟩ := p
      simp only [List.map_cons, nodupKeys, Bool.and_eq_true, Bool.not_eq_true'] at hnd
      have hn : assocLookup acc n = none := hfresh n (by simp)
      rw [juceToQuickJsProps, assocSet_of_lookup_none _ hn]
      rw [ih (acc ++ [(n, juceToQuickJs v)]) ?fresh hnd.2]
      · simp
      case fresh =>
        intro m hm
        rw [assocLookup_append]
        rw [hfresh m (by simp [hm])]
        have hmn : m ≠ n := by
          intro he
          subst he
          have := hnd.1
          simp [List.contains_eq_any_beq] at this
          exact absurd (by simpa using hm) (by simpa using this)
        simp [assocLookup, Ne.symm hmn]

theorem tryElems_roundtrip (xs : List JVar)
    (h : ∀ x ∈ xs, tryQuickJSToJuce (juceToQuickJs x) = .ok x) :
    tryQuickJSToJuceElems (juceToQuickJsList xs) = .ok xs := by
  induction xs with
  | nil => simp [juceToQuickJsList, tryQuickJSToJuceElems]
  | cons x rest ih =>
      simp only [juceToQuickJsList, tryQuickJSToJuceElems]
      rw [h x (by simp), ih (fun y hy => h y (by simp [hy]))]

theorem tryProps_roundtrip (ps : List (String × JVar)) (qs : List (String × JVar)) :
    ∀ acc : List (String × JVar),
    nodupKeys (qs.map Prod.fst) = true →
    (∀ p ∈ qs, assocLookup ps p.1 = some p.2) →
    (∀ p ∈ qs, tryQuickJSToJuce (juceToQuickJs p.2) = .ok p.2) →
    (∀ n ∈ qs.map Prod.fst, assocLookup acc n = none) →
    tryQuickJSToJuceProps true (ps.map (fun p => (p.1, juceToQuickJs p.2))) none
        (qs.map Prod.fst) acc = .ok (acc ++ qs) := by
  induction qs with
  | nil => intro acc _ _ _ _; simp [tryQuickJSToJuceProps]
  | cons p rest ih =>
      intro acc hnd hlook hrt hfresh
      obtain ⟨n, v⟩ := p
      simp only [List.map_cons, nodupKeys, Bool.and_eq_true, Bool.not_eq_true'] at hnd
      have hPn : getPropD (.object true (ps.map (fun p => (p.1, juceToQuickJs p.2))) none) n
          = juceToQuickJs v := by
        rw [getPropD, assocLookup_map_toQ, hlook (n, v) (by simp)]
        rfl
      have hacc : assocSet acc n v = acc ++ [(n, v)] :=
        assocSet_of_lookup_none _ (hfresh n (by simp))
      simp only [List.map_cons, tryQuickJSToJuceProps, hPn, hrt (n, v) (by simp)]
      rw [hacc]
      rw [ih (acc ++ [(n, v)]) hnd.2 (fun q hq => hlook q (by simp [hq]))
            (fun q hq => hrt q (by simp [hq])) ?fresh]
      · simp
      case fresh =>
        intro m hm
        rw [assocLookup_append, hfresh m (by simp [hm])]
        have hmn : m ≠ n := by
          intro he
          subst he
          have := hnd.1
          simp [List.contains_eq_any_beq] at this
          exact absurd (by simpa using hm) (by simpa using this)
        simp [assocLookup, Ne.symm hmn]

theorem sizeOf_snd_lt {p : String × JVar} {ps : List (String × JVar)} (hp : p ∈ ps) :
    sizeOf p.2 < sizeOf ps := by
  have h1 := List.sizeOf_lt_of_mem hp
  obtain ⟨n, v⟩ := p
  simp at h1 ⊢
  omega

theorem roundtrip_aux : ∀ (k : Nat) (v : JVar), sizeOf v ≤ k → goodVar v = true →
    tryQuickJSToJuce (juceToQuickJs v) = .ok v := by
  intro k
  induction k with
  | zero =>
      intro v hv _
      exfalso
      cases v <;> simp at hv <;> omega
  | succ k ih =>
      intro v hv hg
      cases v with
      | void => simp [juceToQuickJs, tryQuickJSToJuce]
      | undefined => simp [juceToQuickJs, tryQuickJSToJuce]
      | b x => simp [juceToQuickJs, tryQuickJSToJuce]
      | d q => simp [juceToQuickJs, tryQuickJSToJuce]
      | str s => simp [juceToQuickJs, tryQuickJSToJuce]
      | i32 n => simp [goodVar] at hg
      | i64 n => simp [goodVar] at hg
      | fn id => simp [goodVar] at hg
      | arr xs =>
          rw [goodVar] at hg
          simp only [juceToQuickJs, tryQuickJSToJuce]
          rw [tryElems_roundtrip xs ?elems]
          case elems =>
            intro x hx
            have hs : sizeOf x ≤ k := by
              have := List.sizeOf_lt_of_mem hx
              simp at hv
              omega
            exact ih x hs (goodVarList_mem hg hx)
      | obj ps =>
          rw [goodVar] at hg
          simp only [Bool.and_eq_true] at hg
          obtain ⟨⟨hnd, hattr⟩, hvals⟩ := hg
          have hP : juceToQuickJsProps ps []
              = ps.map (fun p => (p.1, juceToQuickJs p.2)) := by
            rw [juceToQuickJsProps_eq ps [] (fun n _ => by simp [assocLookup]) hnd]
            simp
          have hkeys : (ps.map (fun p => (p.1, juceToQuickJs p.2))).map Prod.fst
              = ps.map Prod.fst := by
            simp [List.map_map]
          have hfilter : ((ps.map Prod.fst).filter (fun n => n ≠ objectNameAttribute))
              = ps.map Prod.fst :=
            List.filter_eq_self.mpr (fun n hn => by
              have := List.all_eq_true.mp hattr n hn
              simpa using this)
          simp only [juceToQuickJs, hP, tryQuickJSToJuce]
          rw [collectPropNames, if_neg (by simp), collectChain, hkeys, hfilter]
          dsimp only
          rw [tryProps_roundtrip ps ps [] hnd
                (fun p hp => nodupKeys_lookup ps p.1 p.2 hnd (by simpa using hp))
                (fun p hp => ?rt) (fun n _ => by simp [assocLookup])]
          · simp
          case rt =>
            have hs : sizeOf p.2 ≤ k := by
              have := sizeOf_snd_lt hp
              simp at hv
              omega
            exact ih p.2 hs (goodVarProps_mem hvals hp)

/-! ## C1: the marshaller round trip -/

/-- C1 as stated is false: the int32 host value 1 (likewise the int64 value
2) does not round-trip to a structurally equal value — `tryQuickJSToJuce`
reads every engine number through the float64 accessor and returns a
double-tagged host value of the same numeric value. -/
theorem c1_roundtrip_counterexample :
    tryQuickJSToJuce (juceToQuickJs (.i32 1)) = .ok (.d 1)
    ∧ tryQuickJSToJuce (juceToQuickJs (.i32 1)) ≠ .ok (.i32 1)
    ∧ tryQuickJSToJuce (juceToQuickJs (.i64 2)) = .ok (.d 2)
    ∧ tryQuickJSToJuce (juceToQuickJs (.i64 2)) ≠ .ok (.i64 2) := by
  refine ⟨?_, ?_, ?_, ?_⟩ <;> simp [juceToQuickJs, tryQuickJSToJuce]

/-- C1 (amended): for every Host Value of tag undefined, null (void), bool,
double, or string — and arrays and flat (or nested) objects of such values,
the objects having distinct keys none equal to the reserved internal
property name — `fromEngine (toEngine v)` is structurally equal to `v`
(arrays element-by-element in insertion order, objects key-by-key); int32
and int64 values instead come back as the double-tagged value of the same
number (int64 exactly for values representable in float64, the modelled
range). -/
theorem c1_roundtrip_amended :
    (∀ v : JVar, goodVar v = true → tryQuickJSToJuce (juceToQuickJs v) = .ok v)
    ∧ (∀ n : Int, tryQuickJSToJuce (juceToQuickJs (.i32 n)) = .ok (.d (n : ℚ)))
    ∧ (∀ n : Int, -(2 ^ 53) ≤ n → n ≤ 2 ^ 53 →
        tryQuickJSToJuce (juceToQuickJs (.i64 n)) = .ok (.d (n : ℚ))) := by
  refine ⟨fun v hg => roundtrip_aux (sizeOf v) v (le_refl _) hg, ?_, ?_⟩
  · intro n
    simp [juceToQuickJs, tryQuickJSToJuce]
  · intro n _ _
    simp [juceToQuickJs, tryQuickJSToJuce]

/-- Witness for C1 at a concrete object with a string and a nested array, and
at the int64 value 3. -/
theorem c1_witness :
    tryQuickJSToJuce (juceToQuickJs
        (.obj [("a", .str "x"), ("b", .arr [.d 1, .b true])]))
      = .ok (.obj [("a", .str "x"), ("b", .arr [.d 1, .b true])])
    ∧ tryQuickJSToJuce (juceToQuickJs (.i64 3)) = .ok (.d 3) :=
  ⟨c1_roundtrip_amended.1 _
      (by simp [goodVar, goodVarProps, goodVarList, nodupKeys, objectNameAttribute]),
   c1_roundtrip_amended.2.2 3 (by norm_num) (by norm_num)⟩

/-! ## C3: evaluate / callFunction error policy -/

/-- C3: for every raw engine result, a failing `evaluate` or `callFunction`
returns exactly the undefined host value with the failure message in the
error out-parameter (never a partially built array or object — failure
inside a nested conversion aborts the whole conversion), and a successful
call returns the converted value with the out-parameter set to ok. -/
theorem c3_error_policy (raw : EVal) :
    (∀ e : String, quickJSToJuce raw = .err e →
        evaluate raw = (.undefined, .fail e) ∧ callFunction raw = (.undefined, .fail e))
    ∧ (∀ v : JVar, quickJSToJuce raw = .val v →
        evaluate raw = (v, .ok) ∧ callFunction raw = (v, .ok)) := by
  constructor
  · intro e he
    constructor <;> simp [evaluate, callFunction, he]
  · intro v hv
    constructor <;> simp [evaluate, callFunction, hv]

/-- Witness for C3 on a raw exception result and on an array whose second
element is an exception (no partial array escapes). -/
theorem c3_witness :
    evaluate (.exn "boom") = (.undefined, .fail "boom")
    ∧ callFunction (.exn "boom") = (.undefined, .fail "boom")
    ∧ evaluate (.array [.num 1, .exn "late"]) = (.undefined, .fail "late") :=
  ⟨((c3_error_policy (.exn "boom")).1 "boom"
      (by simp [quickJSToJuce, tryQuickJSToJuce])).1,
   ((c3_error_policy (.exn "boom")).1 "boom"
      (by simp [quickJSToJuce, tryQuickJSToJuce])).2,
   ((c3_error_policy (.array [.num 1, .exn "late"])).1 "late"
      (by simp [quickJSToJuce, tryQuickJSToJuce, tryQuickJSToJuceElems])).1⟩

/-! ## C5: when conversion errors -/

theorem exceptionFreeList_mem {xs : List EVal} (h : exceptionFreeList xs = true)
    {x : EVal} (hx : x ∈ xs) : exceptionFree x = true := by
  induction xs with
  | nil => simp at hx
  | cons y rest ih =>
      rw [exceptionFreeList, Bool.and_eq_true] at h
      rcases List.mem_cons.mp hx with hh | ht
      · subst hh; exact h.1
      · exact ih h.2 ht

theorem exceptionFreeProps_lookup {ps : List (String × EVal)} (h : exceptionFreeProps ps = true)
    {n : String} {w : EVal} (hw : assocLookup ps n = some w) : exceptionFree w = true := by
  induction ps with
  | nil => simp [assocLookup] at hw
  | cons p rest ih =>
      rw [exceptionFreeProps, Bool.and_eq_true] at h
      by_cases hm : p.1 = n
      · simp [assocLookup, hm] at hw
        subst hw
        exact h.1
      · simp [assocLookup, hm] at hw
        exact ih h.2 hw

theorem exceptionFree_getPropD : ∀ (k : Nat) (v : EVal), sizeOf v ≤ k →
    ∀ n : String, exceptionFree v = true → exceptionFree (getPropD v n) = true := by
  intro k
  induction k with
  | zero =>
      intro v hv n _
      have := EVal_sizeOf_pos v
      omega
  | succ k ih =>
      intro v hv n hfree
      cases v with
      | object e ps proto =>
          rw [exceptionFree, Bool.and_eq_true] at hfree
          cases hL : assocLookup ps n with
          | some w =>
              rw [getPropD, hL]
              exact exceptionFreeProps_lookup hfree.1 hL
          | none =>
              cases proto with
              | some p =>
                  rw [getPropD, hL, getPropChain]
                  have hps : sizeOf p ≤ k := by
                    simp at hv
                    omega
                  exact ih p hps n (by
                    have := hfree.2
                    rwa [exceptionFreeChain] at this)
              | none =>
                  rw [getPropD, hL, getPropChain]
                  rfl
      | undefined => simp [getPropD, exceptionFree]
      | null => simp [getPropD, exceptionFree]
      | num q => simp [getPropD, exceptionFree]
      | bool x => simp [getPropD, exceptionFree]
      | str s => simp [getPropD, exceptionFree]
      | func id => simp [getPropD, exceptionFree]
      | array xs => simp [getPropD, exceptionFree]
      | exn m => rw [exceptionFree] at hfree; cases hfree

theorem tryProps_ok (e : Bool) (ps : List (String × EVal)) (proto : Option EVal) :
    ∀ (names : List String) (acc : List (String × JVar)),
    (∀ n ∈ names, ∃ w, tryQuickJSToJuce (getPropD (.object e ps proto) n) = .ok w) →
    ∃ r, tryQuickJSToJuceProps e ps proto names acc = .ok r := by
  intro names
  induction names with
  | nil => intro acc _; exact ⟨acc, by simp [tryQuickJSToJuceProps]⟩
  | cons n rest ih =>
      intro acc hconv
      obtain ⟨w, hw⟩ := hconv n (by simp)
      obtain ⟨r, hr⟩ := ih (assocSet acc n w) (fun m hm => hconv m (by simp [hm]))
      exact ⟨r, by simp only [tryQuickJSToJuceProps, hw]; exact hr⟩

theorem tryElems_ok (xs : List EVal)
    (h : ∀ x ∈ xs, ∃ w, tryQuickJSToJuce x = .ok w) :
    ∃ r, tryQuickJSToJuceElems xs = .ok r := by
  induction xs with
  | nil => exact ⟨[], by simp [tryQuickJSToJuceElems]⟩
  | cons x rest ih =>
      obtain ⟨w, hw⟩ := h x (by simp)
      obtain ⟨r, hr⟩ := ih (fun y hy => h y (by simp [hy]))
      exact ⟨w :: r, by simp only [tryQuickJSToJuceElems, hw, hr]⟩

theorem exceptionFree_ok_aux : ∀ (k : Nat) (v : EVal), sizeOf v ≤ k →
    exceptionFree v = true → ∃ w, tryQuickJSToJuce v = .ok w := by
  intro k
  induction k with
  | zero =>
      intro v hv _
      have := EVal_sizeOf_pos v
      omega
  | succ k ih =>
      intro v hv hfree
      cases v with
      | undefined => exact ⟨.undefined, by simp [tryQuickJSToJuce]⟩
      | null => exact ⟨.void, by simp [tryQuickJSToJuce]⟩
      | num q => exact ⟨.d q, by simp [tryQuickJSToJuce]⟩
      | bool x => exact ⟨.b x, by simp [tryQuickJSToJuce]⟩
      | str s => exact ⟨.str s, by simp [tryQuickJSToJuce]⟩
      | func id => exact ⟨.fn id, by simp [tryQuickJSToJuce]⟩
      | exn m => rw [exceptionFree] at hfree; cases hfree
      | array xs =>
          rw [exceptionFree] at hfree
          obtain ⟨r, hr⟩ := tryElems_ok xs (fun x hx => by
            have hs : sizeOf x ≤ k := by
              have := List.sizeOf_lt_of_mem hx
              simp at hv
              omega
            exact ih x hs (exceptionFreeList_mem hfree hx))
          exact ⟨.arr r, by simp only [tryQuickJSToJuce, hr]⟩
      | object e ps proto =>
          cases hC : collectPropNames (.object e ps proto) with
          | none => exact ⟨.obj [], by simp only [tryQuickJSToJuce, hC]⟩
          | some names =>
              obtain ⟨r, hr⟩ := tryProps_ok e ps proto names [] (fun n _ => by
                have hlt := getPropD_sizeOf_lt e ps proto n
                have hs : sizeOf (getPropD (.object e ps proto) n) ≤ k := by omega
                exact ih _ hs (exceptionFree_getPropD _ _ (le_refl _) n hfree))
              exact ⟨.obj r, by simp only [tryQuickJSToJuce, hC, hr]⟩

/-- C5 as stated is false at its own example: an object whose own-property
enumeration fails converts to the empty object Host Value — an `.ok` result,
not an error propagated as an error string. -/
theorem c5_enumeration_counterexample :
    tryQuickJSToJuce (.object false [("a", .num 1)] none) = .ok (.obj [])
    ∧ quickJSToJuce (.object false [("a", .num 1)] none) = .val (.obj []) := by
  constructor <;> simp [tryQuickJSToJuce, quickJSToJuce, collectPropNames]

/-- C5 (amended): engine-to-host conversion produces an error result only
when a pending engine exception is encountered (at top level or during the
recursive conversion of elements and properties); an own-property
enumeration failure instead yields the empty object Host Value; every
exception-free input produces a Host Value; and an error is propagated by
`quickJSToJuce` as a host error string, never an escaping exception. -/
theorem c5_error_source_amended :
    (∀ (ps : List (String × EVal)) (proto : Option EVal),
        tryQuickJSToJuce (.object false ps proto) = .ok (.obj []))
    ∧ (∀ v : EVal, exceptionFree v = true → ∃ w, tryQuickJSToJuce v = .ok w)
    ∧ (∀ (v : EVal) (m : String), tryQuickJSToJuce v = .error m →
        quickJSToJuce v = .err m) := by
  refine ⟨?_, ?_, ?_⟩
  · intro ps proto
    simp [tryQuickJSToJuce, collectPropNames]
  · intro v h
    exact exceptionFree_ok_aux (sizeOf v) v (le_refl _) h
  · intro v m h
    simp [quickJSToJuce, h]

/-- Witness for C5: an exception-free array converts to a value. -/
theorem c5_witness :
    ∃ w, tryQuickJSToJuce (.array [.str "s", .num 2]) = .ok w :=
  c5_error_source_amended.2.1 _ (by simp [exceptionFree, exceptionFreeList])

end Juce
